import Mathlib

set_option linter.unusedSectionVars false

/-!
Shallow embedding of GN's `UniqueVector<T>` (tools/gn/unique_vector.h) and
`SourceDir` (tools/gn/source_dir.h), with theorems settling the frozen
claims about them.

`UniqueVector<T>` keeps a backing `std::vector<T>` (`vector_`) plus an
`std::unordered_set` (`set_`) of `internal::UniquifyRef<T>` entries.  A
committed reference stores a (vector, index) pair together with the cached
hash of the element it denotes; the hash set is keyed by the referenced
value (its hash is the cached one, its equality is equality of the
pointed-to values).  We model a committed reference as the pair of its
index and cached hash, the unordered set as a list of such references, and
machine `size_t` values as `Nat` (with the `(size_t)(-1)` not-found
sentinel made explicit as `2 ^ 64 - 1`).  The element type `T` is any type
with decidable equality, and the `std::hash<T>` instantiation is an
arbitrary function `hash : T → Nat`; since Lean functions respect equality,
the hash/equality consistency the header requires holds by construction.

`SourceDir` is a wrapper around a `std::string` (`value_`); strings are
modelled as Lean `String`s and single C++ character accesses `value_[i]`
as accesses into the character list `value_.data` (all characters the
classification logic inspects are ASCII, where the byte-level and
character-level views agree).
-/

namespace GN

/-- A committed `internal::UniquifyRef<T>`: a reference in (vector, index)
mode, holding the index `index_` into the backing vector and the cached
hash value `hash_val_` of the element it denotes.  (The transient
value-pointer mode exists only for the duration of one probe in the C++
code; in the model a probe is represented directly by the probed value.) -/
structure UniquifyRef where
  index : Nat
  hash_val : Nat
deriving DecidableEq

/-- The state of a `UniqueVector<T>`: the hash set `set_` of committed
references and the backing vector `vector_`. -/
structure UniqueVector (T : Type) where
  set_ : List UniquifyRef
  vector_ : List T
deriving DecidableEq

variable {T : Type} [DecidableEq T]

/-- A freshly constructed `UniqueVector`: both members empty. -/
def emptyUV : UniqueVector T := ⟨[], []⟩

/-- Dereference of a committed reference, `UniquifyRef::value()` in
(vector, index) mode: reads `(*vect_)[index_]` from the current vector. -/
def refValue (v : List T) (r : UniquifyRef) : Option T := v[r.index]?

/-- The hash-set lookup `set_.find(ref)` performed against a probe
reference for the value `t`: `std::unordered_set::find` walks the bucket
selected by the probe's hash (`hash_val`, which for the probe is
`std::hash<T>` of `t`) and compares entries with `operator==` on
`UniquifyRef`, i.e. equality of the referenced values.  A committed entry
sits in the bucket of its cached hash, so it can only be met when its
cached hash matches the probe's. -/
def findRef (hash : T → Nat) (uv : UniqueVector T) (t : T) : Option UniquifyRef :=
  uv.set_.find? (fun r => r.hash_val == hash t && decide (refValue uv.vector_ r = some t))

/-- The sentinel `static_cast<size_t>(-1)` returned by `IndexOf` on a miss,
for the 64-bit `size_t` of the reference platforms. -/
def notFound : Nat := 2 ^ 64 - 1

/-- The copy overload `UniqueVector::push_back(const T& t)`: build a probe
reference (computing the hash once), search the set; on a hit return
`false` leaving the state unmodified, otherwise append `t` to the vector
and insert a committed reference to the new last slot, reusing the hash
computed by the probe.  Returns the C++ return value paired with the
resulting state. -/
def push_back (hash : T → Nat) (uv : UniqueVector T) (t : T) :
    Bool × UniqueVector T :=
  match findRef hash uv t with
  | some _ => (false, uv)
  | none =>
    let vector' := uv.vector_ ++ [t]
    (true, { set_ := uv.set_ ++ [⟨vector'.length - 1, hash t⟩], vector_ := vector' })

/-- The move overload `UniqueVector::push_back(T&& t)`: identical to the
copy overload except that the probe's hash value is saved into a local
(`ref_hash_val`) before `t` is moved into the vector (the move invalidates
the probe reference), and the committed reference is built from that saved
hash. -/
def push_back_move (hash : T → Nat) (uv : UniqueVector T) (t : T) :
    Bool × UniqueVector T :=
  match findRef hash uv t with
  | some _ => (false, uv)
  | none =>
    let ref_hash_val := hash t
    let vector' := uv.vector_ ++ [t]
    (true, { set_ := uv.set_ ++ [⟨vector'.length - 1, ref_hash_val⟩], vector_ := vector' })

/-- The range append `UniqueVector::Append(begin, end)`: `push_back` of
every element in order. -/
def Append (hash : T → Nat) (uv : UniqueVector T) (ts : List T) : UniqueVector T :=
  ts.foldl (fun u t => (push_back hash u t).2) uv

/-- The lookup `UniqueVector::IndexOf(t)`: probe the hash set; on a miss
return `(size_t)(-1)`, on a hit return the committed reference's index. -/
def IndexOf (hash : T → Nat) (uv : UniqueVector T) (t : T) : Nat :=
  match findRef hash uv t with
  | none => notFound
  | some r => r.index

/-- The operation `UniqueVector::clear()`: clears both the vector and the
set. -/
def clearUV : UniqueVector T := ⟨[], []⟩

/-- The operation `UniqueVector::reserve(s)`: a pure capacity hint on the
backing vector with no observable effect on the abstract state. -/
def reserveUV (uv : UniqueVector T) (_s : Nat) : UniqueVector T := uv

/-- One mutating operation of the `UniqueVector` interface. -/
inductive Op (T : Type) where
  | push : T → Op T
  | pushMove : T → Op T
  | appendRange : List T → Op T
  | clearAll : Op T
  | reserveCap : Nat → Op T

/-- Apply one operation to a state. -/
def applyOp (hash : T → Nat) (uv : UniqueVector T) : Op T → UniqueVector T
  | .push t => (push_back hash uv t).2
  | .pushMove t => (push_back_move hash uv t).2
  | .appendRange ts => Append hash uv ts
  | .clearAll => clearUV
  | .reserveCap s => reserveUV uv s

/-- The state reached from a freshly constructed `UniqueVector` by a
sequence of interface operations. -/
def run (hash : T → Nat) (ops : List (Op T)) : UniqueVector T :=
  ops.foldl (applyOp hash) emptyUV

/-- The state reached from a freshly constructed `UniqueVector` by a
sequence of appends only. -/
def runPushes (hash : T → Nat) (ts : List T) : UniqueVector T :=
  Append hash emptyUV ts

/-- Specification-side description of "the order of first successful
append": keep the first occurrence of every value, in order. -/
def firstDedup (ts : List T) : List T :=
  ts.foldl (fun acc t => if t ∈ acc then acc else acc ++ [t]) []

/-- The committed references a well-formed state holds for a given backing
vector: one per slot, in slot order, each caching the hash of the element
it refers to. -/
def goodSet (hash : T → Nat) (v : List T) : List UniquifyRef :=
  v.enum.map (fun p => ⟨p.1, hash p.2⟩)

/-- The representation invariant of `UniqueVector`: the hash set holds
exactly the committed references of the backing vector, and the vector has
no duplicates. -/
def StateInv (hash : T → Nat) (uv : UniqueVector T) : Prop :=
  uv.set_ = goodSet hash uv.vector_ ∧ uv.vector_.Nodup

/-- A `SourceDir`: a directory within the two-root filesystem model,
represented by the single string member `value_`. -/
structure SourceDir where
  value_ : String
deriving DecidableEq

/-- The accessor `SourceDir::value()`. -/
def SourceDir.value (sd : SourceDir) : String := sd.value_

/-- The predicate `SourceDir::is_null()`: true exactly when the stored
string is empty. -/
def SourceDir.is_null (sd : SourceDir) : Bool := sd.value_.isEmpty

/-- The predicate `SourceDir::is_source_absolute()`:
`value_.size() >= 2 && value_[0] == '/' && value_[1] == '/'`. -/
def SourceDir.is_source_absolute (sd : SourceDir) : Bool :=
  decide (2 ≤ sd.value_.length) &&
  decide (sd.value_.data[0]? = some '/') &&
  decide (sd.value_.data[1]? = some '/')

/-- The predicate `SourceDir::is_system_absolute()`: defined in the header
as the plain negation `!is_source_absolute()`. -/
def SourceDir.is_system_absolute (sd : SourceDir) : Bool :=
  !sd.is_source_absolute

/-- The view `SourceDir::SourceAbsoluteWithOneSlash()`: under a `CHECK`
that the directory is source-absolute, returns
`std::string_view(&value_[1], value_.size() - 1)`, i.e. the stored string
minus its first character.  The `CHECK` failure (process abort) is
modelled as `none`. -/
def SourceDir.SourceAbsoluteWithOneSlash (sd : SourceDir) : Option String :=
  if sd.is_source_absolute then some (String.mk (sd.value_.data.drop 1)) else none

/-- The view `SourceDir::SourceWithNoTrailingSlash()`: when
`value_.size() > 2`, returns `std::string_view(&value_[0], value_.size() - 1)`
(all but the final character); otherwise returns the stored string
unchanged (this covers the root forms `"/"` and `"//"`). -/
def SourceDir.SourceWithNoTrailingSlash (sd : SourceDir) : String :=
  if 2 < sd.value_.length then String.mk sd.value_.data.dropLast else sd.value_

/-- The comparison `SourceDir::operator==`: equality of the stored
strings (`value_ == other.value_`), as the C++ `bool` it returns. -/
def SourceDir.eq (a b : SourceDir) : Bool := a.value_ == b.value_

/-- The comparison `SourceDir::operator<`: the lexical order of the stored
strings (`value_ < other.value_`). -/
def SourceDir.lt (a b : SourceDir) : Prop := a.value_ < b.value_

/-- The specialization `std::hash<SourceDir>`: `std::hash<std::string>` of
the stored string.  The standard library's string hash is
implementation-defined, so it is taken as an arbitrary function `h`. -/
def SourceDir.hashWith (h : String → Nat) (sd : SourceDir) : Nat := h sd.value_

/-- Specification-side lexicographic comparison of character sequences,
written out recursively: the empty sequence precedes any non-empty one,
and otherwise the first differing character decides. -/
def lexLt : List Char → List Char → Bool
  | [], [] => false
  | [], _ :: _ => true
  | _ :: _, [] => false
  | a :: as, b :: bs => if a < b then true else if b < a then false else lexLt as bs

/-- Specification-side separator convention for a `SourceDir` value: the
string is empty (the null path) or begins and ends with a separator. -/
def SepConvention (sd : SourceDir) : Prop :=
  sd.value_ = "" ∨
    (sd.value_.data.head? = some '/' ∧ sd.value_.data.getLast? = some '/')

/-- The distinguishable kinds of recoverable path-resolution failure. -/
inductive ErrKind where
  | EmptyInput
  | PathEscapesRoot
  | MalformedAbsolutePath
deriving DecidableEq

/-- Does a raw path string begin with two separators (source-absolute)? -/
def strIsSourceAbsolute (s : String) : Bool :=
  decide (s.data[0]? = some '/') && decide (s.data[1]? = some '/')

/-- Does a raw path string begin with a separator (absolute)? -/
def strIsAbsolute (s : String) : Bool :=
  decide (s.data[0]? = some '/')

/-- Lexical collapse of `"."` and `".."` path segments over an
already-accumulated (reversed) stack of segments; `none` when a `".."`
would move above the root. -/
def collapseSegs : List String → List String → Option (List String)
  | [], acc => some acc.reverse
  | s :: rest, acc =>
    if s = "" ∨ s = "." then collapseSegs rest acc
    else if s = ".." then
      match acc with
      | [] => none
      | _ :: acc' => collapseSegs rest acc'
    else collapseSegs rest (s :: acc)

/-- Render a collapsed segment list below a leading root marker, with the
trailing separator present exactly when a directory (not a file) is being
produced. -/
def renderPath (lead : String) (segs : List String) (as_file : Bool) : String :=
  if segs.isEmpty then lead
  else lead ++ String.intercalate "/" segs ++ (if as_file then "" else "/")

/-- Modelled from the spec: `SourceDir::ResolveRelativeAs` (declared in the
header; its definition lives in source_dir.cc, which is not among the
repository's files).  Following §4.2 of the specification: an empty
candidate string is always an error (`EmptyInput`); a source-absolute
candidate is used as-is after lexically collapsing `"."`/`".."` segments,
failing with `PathEscapesRoot` when a `".."` would escape the source
root; a system-absolute candidate is rewritten below the source root when
the supplied `source_root` is a prefix of it, and otherwise kept
system-absolute; a relative candidate is concatenated onto this
directory's value and collapsed the same way.  `as_file` selects whether
the result carries a trailing separator.  The C++ signature returns an
empty string and fills the caller's `Err`; the model returns the error
kind through `Except`. -/
def SourceDir.ResolveRelativeAs (sd : SourceDir) (as_file : Bool)
    (input : String) (source_root : String) : Except ErrKind String :=
  if input.isEmpty then .error .EmptyInput
  else if strIsSourceAbsolute input then
    match collapseSegs ((String.mk (input.data.drop 2)).splitOn "/") [] with
    | none => .error .PathEscapesRoot
    | some segs => .ok (renderPath "//" segs as_file)
  else if strIsAbsolute input then
    if source_root ≠ "" && source_root.isPrefixOf input then
      match collapseSegs ((String.mk (input.data.drop source_root.length)).splitOn "/") [] with
      | none => .error .PathEscapesRoot
      | some segs => .ok (renderPath "//" segs as_file)
    else
      match collapseSegs ((String.mk (input.data.drop 1)).splitOn "/") [] with
      | none => .error .PathEscapesRoot
      | some segs => .ok (renderPath "/" segs as_file)
  else if strIsSourceAbsolute sd.value_ then
    match collapseSegs (((String.mk (sd.value_.data.drop 2)) ++ input).splitOn "/") [] with
    | none => .error .PathEscapesRoot
    | some segs => .ok (renderPath "//" segs as_file)
  else
    match collapseSegs (((String.mk (sd.value_.data.drop 1)) ++ input).splitOn "/") [] with
    | none => .error .PathEscapesRoot
    | some segs => .ok (renderPath "/" segs as_file)

/-! ### Lemmas about the `UniqueVector` model -/

theorem find?_congr_mem {α : Type} {p q : α → Bool} :
    ∀ {l : List α}, (∀ a ∈ l, p a = q a) → l.find? p = l.find? q := by
  intro l
  induction l with
  | nil => intro _; rfl
  | cons a l ih =>
    intro h
    have ha := h a (List.mem_cons_self a l)
    by_cases hpa : p a = true
    · rw [List.find?_cons_of_pos _ hpa, List.find?_cons_of_pos _ (ha ▸ hpa)]
    · rw [List.find?_cons_of_neg _ hpa, List.find?_cons_of_neg _ (ha ▸ hpa)]
      exact ih fun x hx => h x (List.mem_cons_of_mem a hx)

theorem enumFrom_find_eq (t : T) :
    ∀ (l : List T) (n : Nat),
      (List.enumFrom n l).find? (fun p => decide (p.2 = t)) =
        if t ∈ l then some (n + l.indexOf t, t) else none := by
  intro l
  induction l with
  | nil => intro n; simp
  | cons a l ih =>
    intro n
    by_cases hat : a = t
    · subst hat
      rw [List.enumFrom_cons, List.find?_cons_of_pos _ (by simp)]
      simp [List.indexOf_cons_self]
    · rw [List.enumFrom_cons, List.find?_cons_of_neg _ (by simp [hat]), ih (n + 1)]
      by_cases htl : t ∈ l
      · rw [if_pos htl, if_pos (List.mem_cons_of_mem a htl), List.indexOf_cons_ne _ hat]
        have harith : n + 1 + List.indexOf t l = n + (List.indexOf t l).succ := by omega
        rw [harith]
      · rw [if_neg htl,
          if_neg (by simp only [List.mem_cons, not_or]; exact ⟨fun h => hat h.symm, htl⟩)]

theorem findRef_goodSet (hash : T → Nat) (v : List T) (t : T) :
    findRef hash ⟨goodSet hash v, v⟩ t =
      if t ∈ v then some ⟨v.indexOf t, hash t⟩ else none := by
  show (goodSet hash v).find? _ = _
  rw [goodSet, List.find?_map]
  rw [find?_congr_mem (q := fun p => decide (p.2 = t)) ?_]
  · have henum : v.enum = List.enumFrom 0 v := rfl
    rw [henum, enumFrom_find_eq]
    by_cases ht : t ∈ v
    · rw [if_pos ht, if_pos ht]
      simp
    · rw [if_neg ht, if_neg ht]
      rfl
  · rintro ⟨i, x⟩ hmem
    have hx : v[i]? = some x := List.mem_enum_iff_getElem?.mp hmem
    show (hash x == hash t && decide (refValue v ⟨i, hash x⟩ = some t)) = decide (x = t)
    by_cases hxt : x = t
    · subst hxt
      simp [refValue, hx]
    · simp [refValue, hx, hxt]

theorem goodSet_append (hash : T → Nat) (v : List T) (t : T) :
    goodSet hash (v ++ [t]) = goodSet hash v ++ [⟨v.length, hash t⟩] := by
  simp [goodSet, List.enum_append, List.enumFrom]

theorem goodSet_length (hash : T → Nat) (v : List T) :
    (goodSet hash v).length = v.length := by
  simp [goodSet]

theorem goodSet_mem (hash : T → Nat) {v : List T} {r : UniquifyRef}
    (hr : r ∈ goodSet hash v) :
    r.index < v.length ∧ ∃ x, v[r.index]? = some x ∧ r.hash_val = hash x := by
  rw [goodSet, List.mem_map] at hr
  obtain ⟨⟨i, x⟩, hmem, rfl⟩ := hr
  have hx : v[i]? = some x := List.mem_enum_iff_getElem?.mp hmem
  obtain ⟨hb, _⟩ := List.getElem?_eq_some.mp hx
  exact ⟨hb, x, hx, rfl⟩

theorem push_back_mem (hash : T → Nat) {uv : UniqueVector T} {t : T}
    (hset : uv.set_ = goodSet hash uv.vector_) (ht : t ∈ uv.vector_) :
    push_back hash uv t = (false, uv) := by
  obtain ⟨s, v⟩ := uv
  simp only at hset
  subst hset
  rw [push_back, findRef_goodSet, if_pos ht]

theorem push_back_not_mem (hash : T → Nat) {uv : UniqueVector T} {t : T}
    (hset : uv.set_ = goodSet hash uv.vector_) (ht : t ∉ uv.vector_) :
    push_back hash uv t =
      (true, ⟨goodSet hash (uv.vector_ ++ [t]), uv.vector_ ++ [t]⟩) := by
  obtain ⟨s, v⟩ := uv
  simp only at hset
  subst hset
  rw [push_back, findRef_goodSet, if_neg ht]
  rw [goodSet_append]
  simp

theorem stateInv_empty (hash : T → Nat) : StateInv hash (emptyUV : UniqueVector T) :=
  ⟨rfl, List.nodup_nil⟩

theorem push_back_move_eq (hash : T → Nat) (uv : UniqueVector T) (t : T) :
    push_back_move hash uv t = push_back hash uv t := rfl

theorem stateInv_push (hash : T → Nat) {uv : UniqueVector T} (h : StateInv hash uv) (t : T) :
    StateInv hash (push_back hash uv t).2 ∧
      (push_back hash uv t).2.vector_ =
        (if t ∈ uv.vector_ then uv.vector_ else uv.vector_ ++ [t]) := by
  by_cases ht : t ∈ uv.vector_
  · rw [push_back_mem hash h.1 ht, if_pos ht]
    exact ⟨h, rfl⟩
  · rw [push_back_not_mem hash h.1 ht, if_neg ht]
    refine ⟨⟨rfl, ?_⟩, rfl⟩
    simp [List.nodup_append, h.2, ht]

theorem append_fold (hash : T → Nat) (ts : List T) :
    ∀ (uv : UniqueVector T), StateInv hash uv →
      StateInv hash (Append hash uv ts) ∧
        (Append hash uv ts).vector_ =
          ts.foldl (fun acc t => if t ∈ acc then acc else acc ++ [t]) uv.vector_ := by
  induction ts with
  | nil => intro uv h; exact ⟨h, rfl⟩
  | cons t ts ih =>
    intro uv h
    have hstep := stateInv_push hash h t
    have happ : Append hash uv (t :: ts) = Append hash (push_back hash uv t).2 ts := rfl
    obtain ⟨hinv, hvec⟩ := ih (push_back hash uv t).2 hstep.1
    refine ⟨happ ▸ hinv, ?_⟩
    rw [happ, hvec, hstep.2, List.foldl_cons]

theorem stateInv_applyOp (hash : T → Nat) {uv : UniqueVector T}
    (h : StateInv hash uv) (op : Op T) :
    StateInv hash (applyOp hash uv op) := by
  cases op with
  | push t => exact (stateInv_push hash h t).1
  | pushMove t =>
    show StateInv hash (push_back_move hash uv t).2
    rw [push_back_move_eq]
    exact (stateInv_push hash h t).1
  | appendRange ts => exact (append_fold hash ts uv h).1
  | clearAll => exact ⟨rfl, List.nodup_nil⟩
  | reserveCap s => exact h

theorem stateInv_run (hash : T → Nat) (ops : List (Op T)) :
    StateInv hash (run hash ops) := by
  suffices hgen : ∀ uv, StateInv hash uv → StateInv hash (ops.foldl (applyOp hash) uv) from
    hgen emptyUV (stateInv_empty hash)
  induction ops with
  | nil => intro uv h; exact h
  | cons op ops ih =>
    intro uv h
    exact ih _ (stateInv_applyOp hash h op)

theorem stateInv_runPushes (hash : T → Nat) (ts : List T) :
    StateInv hash (runPushes hash ts) :=
  (append_fold hash ts emptyUV (stateInv_empty hash)).1

theorem runPushes_vector (hash : T → Nat) (ts : List T) :
    (runPushes hash ts).vector_ = firstDedup ts :=
  (append_fold hash ts emptyUV (stateInv_empty hash)).2

theorem IndexOf_mem (hash : T → Nat) {uv : UniqueVector T} {t : T}
    (hset : uv.set_ = goodSet hash uv.vector_) (ht : t ∈ uv.vector_) :
    IndexOf hash uv t = uv.vector_.indexOf t := by
  obtain ⟨s, v⟩ := uv
  simp only at hset
  subst hset
  rw [IndexOf, findRef_goodSet, if_pos ht]

theorem IndexOf_not_mem (hash : T → Nat) {uv : UniqueVector T} {t : T}
    (hset : uv.set_ = goodSet hash uv.vector_) (ht : t ∉ uv.vector_) :
    IndexOf hash uv t = notFound := by
  obtain ⟨s, v⟩ := uv
  simp only at hset
  subst hset
  rw [IndexOf, findRef_goodSet, if_neg ht]

theorem nodup_getElem?_ne {α : Type} {l : List α} (h : l.Nodup)
    {i j : Nat} (hij : i ≠ j) {x y : α}
    (hi : l[i]? = some x) (hj : l[j]? = some y) : x ≠ y := by
  intro hxy
  subst hxy
  obtain ⟨hbi, hxi⟩ := List.getElem?_eq_some.mp hi
  obtain ⟨hbj, hxj⟩ := List.getElem?_eq_some.mp hj
  exact hij (List.Nodup.getElem_inj_iff h |>.mp (hxi.trans hxj.symm))

/-! ### Claim theorems about `UniqueVector` -/

/-- C1: for every collection state reachable by appends and every value
`v`: if an element equal to `v` is already stored, `push_back` returns
`false` and leaves both the sequence and the index unmodified; otherwise
it returns `true`, stores `v` at the end position `size()`, and increases
`size()` by exactly one.  Consequently appending the same value twice
returns `true` then `false` with the length growing by exactly one (the
second append leaves the state untouched), no duplicate is ever stored
(the vector is nodup), and the storage order is the order of first
successful append (`firstDedup`). -/
theorem push_back_unique_contract (hash : T → Nat) (ts : List T) (v : T) :
    (v ∈ (runPushes hash ts).vector_ →
      push_back hash (runPushes hash ts) v = (false, runPushes hash ts)) ∧
    (v ∉ (runPushes hash ts).vector_ →
      (push_back hash (runPushes hash ts) v).1 = true ∧
      (push_back hash (runPushes hash ts) v).2.vector_ =
        (runPushes hash ts).vector_ ++ [v] ∧
      (push_back hash (runPushes hash ts) v).2.vector_.length =
        (runPushes hash ts).vector_.length + 1 ∧
      (push_back hash (runPushes hash ts) v).2.vector_[(runPushes hash ts).vector_.length]? =
        some v) ∧
    (push_back hash (push_back hash (runPushes hash ts) v).2 v).1 = false ∧
    (push_back hash (push_back hash (runPushes hash ts) v).2 v).2 =
      (push_back hash (runPushes hash ts) v).2 ∧
    (runPushes hash ts).vector_.Nodup ∧
    (runPushes hash ts).vector_ = firstDedup ts := by
  have hinv := stateInv_runPushes hash ts
  have hinv' := (stateInv_push hash hinv v).1
  have hmem' : v ∈ (push_back hash (runPushes hash ts) v).2.vector_ := by
    rw [(stateInv_push hash hinv v).2]
    by_cases hv : v ∈ (runPushes hash ts).vector_
    · rwa [if_pos hv]
    · rw [if_neg hv]
      exact List.mem_append_right _ (List.mem_singleton_self v)
  have hsecond := push_back_mem hash hinv'.1 hmem'
  refine ⟨?_, ?_, ?_, ?_, hinv.2, runPushes_vector hash ts⟩
  · intro hv
    exact push_back_mem hash hinv.1 hv
  · intro hv
    rw [push_back_not_mem hash hinv.1 hv]
    refine ⟨rfl, rfl, by simp, ?_⟩
    exact List.getElem?_concat_length _ _
  · rw [hsecond]
  · rw [hsecond]

/-- C2: for every reachable collection state and every value `t`, when an
element equal to `t` is stored `IndexOf` returns its position in the
backing vector (which, by the storage-order part of the `push_back`
contract, is the position at which it was first successfully appended),
a valid in-range index; when no equal element is stored it returns the
not-found sentinel `(size_t)(-1)`, a value out of range for any valid
index of a representable vector. -/
theorem IndexOf_first_append_or_sentinel (hash : T → Nat) (ops : List (Op T)) (t : T) :
    (t ∈ (run hash ops).vector_ →
      IndexOf hash (run hash ops) t = (run hash ops).vector_.indexOf t ∧
      IndexOf hash (run hash ops) t < (run hash ops).vector_.length) ∧
    (t ∉ (run hash ops).vector_ → IndexOf hash (run hash ops) t = notFound) ∧
    ((run hash ops).vector_.length ≤ notFound →
      ∀ i, i < (run hash ops).vector_.length → i ≠ notFound) := by
  have hinv := stateInv_run hash ops
  refine ⟨?_, ?_, ?_⟩
  · intro ht
    rw [IndexOf_mem hash hinv.1 ht]
    exact ⟨rfl, List.indexOf_lt_length.mpr ht⟩
  · intro ht
    exact IndexOf_not_mem hash hinv.1 ht
  · intro hlen i hi
    omega

/-- C3: the claimed state invariant holds in every state reachable from a
freshly constructed collection by `push_back` (both overloads), `Append`,
`clear` and `reserve`: any two distinct positions of the sequence hold
unequal values, the index structure holds exactly as many references as
the sequence has elements, and every committed reference refers to a
valid index of the sequence and caches the hash of the element it
denotes. -/
theorem unique_vector_state_invariant (hash : T → Nat) (ops : List (Op T)) :
    (∀ (i j : Nat) (x y : T), i ≠ j →
        (run hash ops).vector_[i]? = some x →
        (run hash ops).vector_[j]? = some y → x ≠ y) ∧
    (run hash ops).set_.length = (run hash ops).vector_.length ∧
    (∀ r ∈ (run hash ops).set_,
        r.index < (run hash ops).vector_.length ∧
        ∃ x, (run hash ops).vector_[r.index]? = some x ∧ r.hash_val = hash x) := by
  have hinv := stateInv_run hash ops
  refine ⟨?_, ?_, ?_⟩
  · intro i j x y hij hi hj
    exact nodup_getElem?_ne hinv.2 hij hi hj
  · rw [hinv.1, goodSet_length]
  · intro r hr
    exact goodSet_mem hash (hinv.1 ▸ hr)

/-- C5: the move overload `push_back(T&&)` is observably equivalent to the
copy overload `push_back(const T&)`: on every state and value it returns
the same boolean and the same final state (sequence and index alike); and
because the hash is captured before the move, in a well-formed state the
index it leaves behind consists exactly of references caching the hash of
the value stored at their slot. -/
theorem push_back_move_equiv (hash : T → Nat) (uv : UniqueVector T) (t : T) :
    push_back_move hash uv t = push_back hash uv t ∧
    (uv.set_ = goodSet hash uv.vector_ →
      (push_back_move hash uv t).2.set_ =
        goodSet hash (push_back_move hash uv t).2.vector_) := by
  refine ⟨rfl, ?_⟩
  intro hset
  rw [push_back_move_eq]
  by_cases ht : t ∈ uv.vector_
  · rw [push_back_mem hash hset ht]
    exact hset
  · rw [push_back_not_mem hash hset ht]

/-! ### Lemmas about the `SourceDir` model -/

theorem lexLt_iff :
    ∀ (l₁ l₂ : List Char), (lexLt l₁ l₂ = true) ↔ List.Lex (· < ·) l₁ l₂ := by
  intro l₁
  induction l₁ with
  | nil =>
    intro l₂
    cases l₂ with
    | nil =>
      constructor
      · intro h
        exact absurd h (by decide)
      · intro h
        cases h
    | cons b bs =>
      constructor
      · intro _
        exact List.Lex.nil
      · intro _
        rfl
  | cons a as ih =>
    intro l₂
    cases l₂ with
    | nil =>
      constructor
      · intro h
        exact absurd h (by simp [lexLt])
      · intro h
        cases h
    | cons b bs =>
      simp only [lexLt]
      by_cases hab : a < b
      · rw [if_pos hab]
        exact ⟨fun _ => List.Lex.rel hab, fun _ => rfl⟩
      · rw [if_neg hab]
        by_cases hba : b < a
        · rw [if_pos hba]
          constructor
          · intro h
            cases h
          · intro h
            cases h with
            | cons _ => exact absurd hba (lt_irrefl a)
            | rel h' => exact absurd h' hab
        · rw [if_neg hba]
          have hcharab : a = b := le_antisymm (not_lt.mp hba) (not_lt.mp hab)
          subst hcharab
          constructor
          · intro h
            exact List.Lex.cons ((ih bs).mp h)
          · intro h
            cases h with
            | cons h' => exact (ih bs).mpr h'
            | rel h' => exact absurd h' hab

/-! ### Claim theorems about `SourceDir` -/

/-- C4 counterexample: the claim says the empty string is classified as
neither source-absolute nor system-absolute; on the code the empty (null)
value is not source-absolute but IS classified system-absolute, because
`is_system_absolute()` is the plain negation of `is_source_absolute()`. -/
theorem null_dir_system_absolute_cex :
    (SourceDir.mk "").is_null = true ∧
    (SourceDir.mk "").is_source_absolute = false ∧
    (SourceDir.mk "").is_system_absolute = true := by
  refine ⟨rfl, by decide, by decide⟩

/-- C4 (amended): a value beginning with two separators is
source-absolute; every other value — the empty (null) string included —
is not source-absolute and is classified system-absolute; `is_null`
singles out the empty string.  The two classifying predicates decide this
from the first one or two characters of the stored string. -/
theorem sourcedir_classification_amended (s : String) :
    ((SourceDir.mk s).is_source_absolute = true ↔
      s.data[0]? = some '/' ∧ s.data[1]? = some '/') ∧
    ((SourceDir.mk s).is_system_absolute = true ↔
      ¬(s.data[0]? = some '/' ∧ s.data[1]? = some '/')) ∧
    ((SourceDir.mk s).is_null = true ↔ s = "") := by
  obtain ⟨l⟩ := s
  have habs : (SourceDir.mk (String.mk l)).is_source_absolute = true ↔
      l[0]? = some '/' ∧ l[1]? = some '/' := by
    simp only [SourceDir.is_source_absolute, Bool.and_eq_true, decide_eq_true_eq]
    constructor
    · rintro ⟨⟨_, h0⟩, h1⟩
      exact ⟨h0, h1⟩
    · rintro ⟨h0, h1⟩
      obtain ⟨hb, _⟩ := List.getElem?_eq_some.mp h1
      exact ⟨⟨by exact hb, h0⟩, h1⟩
  refine ⟨habs, ?_, ?_⟩
  · constructor
    · intro hsys hcond
      rw [SourceDir.is_system_absolute, habs.mpr hcond] at hsys
      exact absurd hsys (by decide)
    · intro hcond
      rw [SourceDir.is_system_absolute]
      cases hsrc : (SourceDir.mk (String.mk l)).is_source_absolute with
      | false => rfl
      | true => exact absurd (habs.mp hsrc) hcond
  · rw [SourceDir.is_null, String.isEmpty_iff]

/-- C6: equality, ordering and hash of `SourceDir` are pure functions of
the stored string:
`operator==` holds exactly when the strings are identical (equivalently,
when the two instances are interchangeable), `operator<` is the
lexicographic order on the string's characters, and equal instances hash
identically under `std::hash<SourceDir>` for whatever string hash the
standard library supplies — so `SourceDir` is usable as a hash key. -/
theorem sourcedir_eq_lt_hash_contract (a b : SourceDir) (h : String → Nat) :
    (SourceDir.eq a b = true ↔ a.value_ = b.value_) ∧
    (SourceDir.eq a b = true ↔ a = b) ∧
    (SourceDir.lt a b ↔ lexLt a.value_.data b.value_.data = true) ∧
    (SourceDir.eq a b = true → SourceDir.hashWith h a = SourceDir.hashWith h b) := by
  have heq : SourceDir.eq a b = true ↔ a.value_ = b.value_ := beq_iff_eq
  refine ⟨heq, ?_, ?_, ?_⟩
  · rw [heq]
    obtain ⟨x⟩ := a
    obtain ⟨y⟩ := b
    simp
  · exact String.lt_iff_toList_lt.trans (lexLt_iff _ _).symm
  · intro hab
    rw [SourceDir.hashWith, SourceDir.hashWith, heq.mp hab]

/-- C7: under the precondition that the value is source-absolute,
`SourceAbsoluteWithOneSlash` returns exactly the stored string minus its
first separator character and its `CHECK` cannot fire; on a
non-source-absolute value the `CHECK` fails (modelled as `none`), a
programmer-error contract rather than a recoverable error return. -/
theorem source_absolute_one_slash_contract (sd : SourceDir) :
    (sd.is_source_absolute = true →
      sd.SourceAbsoluteWithOneSlash = some (String.mk (sd.value_.data.drop 1))) ∧
    (sd.is_source_absolute = false → sd.SourceAbsoluteWithOneSlash = none) := by
  constructor
  · intro h
    simp [SourceDir.SourceAbsoluteWithOneSlash, h]
  · intro h
    simp [SourceDir.SourceAbsoluteWithOneSlash, h]

/-- C8: for every value following the separator convention (empty, or
beginning and ending with a separator), `SourceWithNoTrailingSlash`
returns the value without its final separator character, except that the
root forms `"/"` and `"//"` are returned unchanged. -/
theorem no_trailing_slash_contract (sd : SourceDir) (hconv : SepConvention sd) :
    sd.SourceWithNoTrailingSlash =
      (if sd.value_ = "/" ∨ sd.value_ = "//" then sd.value_
       else String.mk sd.value_.data.dropLast) := by
  obtain ⟨⟨l⟩⟩ := sd
  rcases hconv with hempty | ⟨hhead, hlast⟩
  · have hl : l = [] := by
      have hd := congrArg String.data hempty
      simpa using hd
    subst hl
    decide
  · rcases l with _ | ⟨c1, _ | ⟨c2, _ | ⟨c3, rest⟩⟩⟩
    · simp at hhead
    · have hc1 : c1 = '/' := by simpa using hhead
      subst hc1
      decide
    · have hc1 : c1 = '/' := by simpa using hhead
      have hc2 : c2 = '/' := by simpa using hlast
      subst hc1
      subst hc2
      decide
    · have hlen : 2 < (String.mk (c1 :: c2 :: c3 :: rest)).length := by
        show 2 < (c1 :: c2 :: c3 :: rest).length
        simp
      have hslash : ("/" : String).data = ['/'] := rfl
      have hslash2 : ("//" : String).data = ['/', '/'] := rfl
      have hne : ¬(String.mk (c1 :: c2 :: c3 :: rest) = "/" ∨
          String.mk (c1 :: c2 :: c3 :: rest) = "//") := by
        rintro (h1 | h2)
        · have hd := congrArg String.data h1
          rw [hslash] at hd
          simp at hd
        · have hd := congrArg String.data h2
          rw [hslash2] at hd
          simp at hd
      rw [SourceDir.SourceWithNoTrailingSlash, if_pos hlen, if_neg hne]

/-- C8 witness: the contract evaluated at the concrete source-absolute
directory `"//a/b/"`, which satisfies the separator convention; the two
concrete examples of the claim are checked alongside. -/
theorem no_trailing_slash_contract_witness :
    ((SourceDir.mk "//a/b/").SourceWithNoTrailingSlash =
      (if ("//a/b/" : String) = "/" ∨ ("//a/b/" : String) = "//" then ("//a/b/" : String)
       else String.mk ("//a/b/" : String).data.dropLast)) ∧
    (SourceDir.mk "//a/b/").SourceWithNoTrailingSlash = "//a/b" ∧
    (SourceDir.mk "//").SourceWithNoTrailingSlash = "//" := by
  refine ⟨no_trailing_slash_contract (SourceDir.mk "//a/b/") ?_, by decide, by decide⟩
  exact Or.inr (by decide)

/-- C9: for every base directory, every `as_file` flag and every
`source_root`, resolving an empty candidate string fails with the
`EmptyInput` error kind — no resolved path is ever produced for it. -/
theorem resolve_relative_empty_input_error (sd : SourceDir) (as_file : Bool)
    (source_root : String) :
    sd.ResolveRelativeAs as_file "" source_root = .error .EmptyInput := by
  rw [SourceDir.ResolveRelativeAs]
  rw [if_pos (by decide)]

/-- C10: for every stored string, the empty string included,
`is_system_absolute()` returns exactly the negation of
`is_source_absolute()`; in particular the null (empty) path is classified
system-absolute, and no value is ever classified as both or as neither. -/
theorem system_absolute_negation (s : String) :
    (SourceDir.mk s).is_system_absolute = !(SourceDir.mk s).is_source_absolute ∧
    ((SourceDir.mk s).is_source_absolute = true ∧
        (SourceDir.mk s).is_system_absolute = false ∨
      (SourceDir.mk s).is_source_absolute = false ∧
        (SourceDir.mk s).is_system_absolute = true) ∧
    (SourceDir.mk "").is_system_absolute = true := by
  refine ⟨rfl, ?_, by decide⟩
  cases habs : (SourceDir.mk s).is_source_absolute with
  | false => exact Or.inr ⟨rfl, by rw [SourceDir.is_system_absolute, habs]; rfl⟩
  | true => exact Or.inl ⟨rfl, by rw [SourceDir.is_system_absolute, habs]; rfl⟩

end GN
